import Mathlib

/-!
Verification of the Max-Cut / chemistry notebook pipeline of this repository.

The repository consists of two notebooks that sequence calls into an external
quantum-optimization library: a weighted graph is mapped to an Ising qubit
Hamiltonian (`maxcut.get_maxcut_qubitops`), solved exactly
(`ExactEigensolver`) and variationally (`VQE`), and the resulting eigenvector
is decoded back to a cut (`maxcut.sample_most_likely`,
`maxcut.get_graph_solution`).  The library functions themselves are not part
of the repository; where a property depends on them they are modelled here
from the specification, and the notebooks' recorded outputs (the 4-node
sample graph, its energies, and the LiH energies) are embedded as concrete
data.  Weights and amplitudes are embedded as rationals; an `n`-node weighted
graph is a square matrix `Fin n → Fin n → ℚ`; a computational basis state is
an assignment `Fin n → Bool` of each node to a cut side.
-/

/-- Modelled from the spec: the pauli-term list built by the external
library's `maxcut.get_maxcut_qubitops` (missing from the repository).  For
every pair `j < i` with nonzero weight it emits a `Z_i Z_j` string with
coefficient `w i j / 2`; a term is recorded as (coefficient, i, j). -/
def pauliTerms (n : ℕ) (w : Fin n → Fin n → ℚ) : List (ℚ × Fin n × Fin n) :=
  (List.finRange n).flatMap fun i =>
    ((List.finRange n).filter fun j => decide (j < i) && decide (w i j ≠ 0)).map
      fun j => (w i j / 2, i, j)

/-- Modelled from the spec: `maxcut.get_maxcut_qubitops` returns the pauli
list together with the scalar shift, which is decremented by each emitted
coefficient, i.e. it is the negated sum of the coefficients. -/
def get_maxcut_qubitops (n : ℕ) (w : Fin n → Fin n → ℚ) :
    List (ℚ × Fin n × Fin n) × ℚ :=
  (pauliTerms n w, -((pauliTerms n w).map Prod.fst).sum)

/-- Value of a sum of `Z_i Z_j` pauli strings on the computational basis
state `x`: each `Z_i Z_j` contributes `+1` when `x i = x j` and `-1`
otherwise.  Such an operator is diagonal, so these values are exactly its
diagonal entries, hence its eigenvalues. -/
def evalZZ (n : ℕ) (paulis : List (ℚ × Fin n × Fin n)) (x : Fin n → Bool) : ℚ :=
  (paulis.map fun p => p.1 * (if x p.2.1 = x p.2.2 then 1 else -1)).sum

/-- The set of eigenvalues of a diagonal `Z`-string Hamiltonian: the values
of its diagonal over all `2^n` computational basis states. -/
def specEigenvalues (n : ℕ) (paulis : List (ℚ × Fin n × Fin n)) : Finset ℚ :=
  Finset.image (evalZZ n paulis) Finset.univ

/-- The minimum eigenvalue of a diagonal `Z`-string Hamiltonian. -/
def minEigenvalue (n : ℕ) (paulis : List (ℚ × Fin n × Fin n)) : ℚ :=
  (specEigenvalues n paulis).min' (Finset.univ_nonempty.image _)

/-- The weight of the cut induced by the assignment `x`: the total weight of
the edges whose endpoints are on different sides. -/
def cutWeight (n : ℕ) (w : Fin n → Fin n → ℚ) (x : Fin n → Bool) : ℚ :=
  ∑ i, ∑ j, if i < j ∧ x i ≠ x j then w i j else 0

/-- The maximum cut weight of the graph `w` over all `2^n` assignments. -/
def maxCutValue (n : ℕ) (w : Fin n → Fin n → ℚ) : ℚ :=
  (Finset.image (cutWeight n w) Finset.univ).max' (Finset.univ_nonempty.image _)

lemma sum_map_flatMap {α β : Type} (l : List α) (f : α → List β) (g : β → ℚ) :
    ((l.flatMap f).map g).sum = (l.map fun a => ((f a).map g).sum).sum := by
  induction l with
  | nil => rfl
  | cons a t ih => simp [List.flatMap_cons, ih]

lemma sum_map_filter {α : Type} (l : List α) (p : α → Bool) (g : α → ℚ) :
    ((l.filter p).map g).sum = (l.map fun a => if p a then g a else 0).sum := by
  induction l with
  | nil => rfl
  | cons a t ih => by_cases h : p a <;> simp [List.filter_cons, h, ih]

lemma evalZZ_pauliTerms (n : ℕ) (w : Fin n → Fin n → ℚ) (x : Fin n → Bool) :
    evalZZ n (pauliTerms n w) x
      = ∑ i, ∑ j, if j < i ∧ w i j ≠ 0 then
          w i j / 2 * (if x i = x j then 1 else -1) else 0 := by
  unfold evalZZ pauliTerms
  rw [sum_map_flatMap, Fin.sum_univ_def]
  congr 1
  apply List.map_congr_left
  intro i _
  rw [List.map_map, sum_map_filter, Fin.sum_univ_def]
  congr 1
  apply List.map_congr_left
  intro j _
  by_cases h1 : j < i <;> by_cases h2 : w i j = 0 <;>
    simp [h1, h2, Function.comp]

lemma neg_list_sum (l : List ℚ) : -l.sum = (l.map fun a => -a).sum := by
  induction l with
  | nil => simp
  | cons a t ih => simp [ih]; ring

lemma offset_pauliTerms (n : ℕ) (w : Fin n → Fin n → ℚ) :
    (get_maxcut_qubitops n w).2
      = ∑ i, ∑ j, if j < i ∧ w i j ≠ 0 then -(w i j / 2) else 0 := by
  unfold get_maxcut_qubitops pauliTerms
  simp only
  rw [sum_map_flatMap, neg_list_sum, List.map_map, Fin.sum_univ_def]
  congr 1
  apply List.map_congr_left
  intro i _
  simp only [Function.comp]
  rw [List.map_map, neg_list_sum, List.map_map, sum_map_filter,
    Fin.sum_univ_def]
  congr 1
  apply List.map_congr_left
  intro j _
  by_cases h1 : j < i <;> by_cases h2 : w i j = 0 <;>
    simp [h1, h2, Function.comp]

lemma cutWeight_lower (n : ℕ) (w : Fin n → Fin n → ℚ)
    (hsymm : ∀ i j, w i j = w j i) (x : Fin n → Bool) :
    cutWeight n w x = ∑ i, ∑ j, if j < i ∧ x i ≠ x j then w i j else 0 := by
  unfold cutWeight
  rw [Finset.sum_comm]
  apply Finset.sum_congr rfl
  intro i _
  apply Finset.sum_congr rfl
  intro j _
  exact if_congr (and_congr Iff.rfl ne_comm) (hsymm j i) rfl

lemma offset_add_evalZZ (n : ℕ) (w : Fin n → Fin n → ℚ)
    (hsymm : ∀ i j, w i j = w j i) (x : Fin n → Bool) :
    (get_maxcut_qubitops n w).2 + evalZZ n (get_maxcut_qubitops n w).1 x
      = -cutWeight n w x := by
  have hfst : (get_maxcut_qubitops n w).1 = pauliTerms n w := rfl
  rw [hfst, offset_pauliTerms, evalZZ_pauliTerms, cutWeight_lower n w hsymm x,
    ← Finset.sum_neg_distrib, ← Finset.sum_add_distrib]
  apply Finset.sum_congr rfl
  intro i _
  rw [← Finset.sum_neg_distrib, ← Finset.sum_add_distrib]
  apply Finset.sum_congr rfl
  intro j _
  by_cases h1 : j < i <;> by_cases h2 : w i j = 0 <;> by_cases h3 : x i = x j <;>
    simp [h1, h2, h3] <;> try ring

/-- The 4-node weighted graph recorded in the maxcut notebook's third cell
output (produced by `maxcut.random_graph(4, edge_prob=0.5, weight_range=10)`
under seed 8123179). -/
def sampleGraph : Fin 4 → Fin 4 → ℚ := fun i j =>
  (([[0, 8, -9, 0], [8, 0, 7, 9], [-9, 7, 0, -8], [0, 9, -8, 0]] :
      List (List ℚ)).getD i []).getD j 0

lemma minEigenvalue_le (n : ℕ) (paulis : List (ℚ × Fin n × Fin n))
    (x : Fin n → Bool) : minEigenvalue n paulis ≤ evalZZ n paulis x := by
  unfold minEigenvalue specEigenvalues
  exact Finset.min'_le _ _ (Finset.mem_image.mpr ⟨x, Finset.mem_univ x, rfl⟩)

lemma exists_minEigenvalue_state (n : ℕ) (paulis : List (ℚ × Fin n × Fin n)) :
    ∃ x : Fin n → Bool, evalZZ n paulis x = minEigenvalue n paulis := by
  unfold minEigenvalue specEigenvalues
  have h := Finset.min'_mem (Finset.image (evalZZ n paulis) Finset.univ)
    (Finset.univ_nonempty.image _)
  rw [Finset.mem_image] at h
  obtain ⟨x, -, hx⟩ := h
  exact ⟨x, hx⟩

lemma le_maxCutValue (n : ℕ) (w : Fin n → Fin n → ℚ) (x : Fin n → Bool) :
    cutWeight n w x ≤ maxCutValue n w := by
  unfold maxCutValue
  exact Finset.le_max' _ _ (Finset.mem_image.mpr ⟨x, Finset.mem_univ x, rfl⟩)

lemma exists_maxCutValue_state (n : ℕ) (w : Fin n → Fin n → ℚ) :
    ∃ x : Fin n → Bool, cutWeight n w x = maxCutValue n w := by
  unfold maxCutValue
  have h := Finset.max'_mem (Finset.image (cutWeight n w) Finset.univ)
    (Finset.univ_nonempty.image _)
  rw [Finset.mem_image] at h
  obtain ⟨x, -, hx⟩ := h
  exact ⟨x, hx⟩

/-- C1: for every small weighted graph `w` (symmetric, as all graphs fed to
the mapping are), the scalar offset returned by `get_maxcut_qubitops` plus
the minimum eigenvalue of the returned diagonal qubit Hamiltonian equals the
negative of the maximum cut weight of `w`; pointwise, on every basis state
`x` the offset plus the Hamiltonian's value is the negated cut weight of the
assignment `x`, so minimizing the Hamiltonian is equivalent to maximizing
the cut. -/
theorem maxcut_ising_objective_correct (n : ℕ) (w : Fin n → Fin n → ℚ)
    (hsymm : ∀ i j, w i j = w j i) :
    (∀ x : Fin n → Bool,
        (get_maxcut_qubitops n w).2 + evalZZ n (get_maxcut_qubitops n w).1 x
          = -cutWeight n w x) ∧
    (get_maxcut_qubitops n w).2 + minEigenvalue n (get_maxcut_qubitops n w).1
      = -maxCutValue n w := by
  refine ⟨offset_add_evalZZ n w hsymm, ?_⟩
  obtain ⟨x₁, hx₁⟩ := exists_minEigenvalue_state n (get_maxcut_qubitops n w).1
  obtain ⟨x₀, hx₀⟩ := exists_maxCutValue_state n w
  apply le_antisymm
  · have h1 := minEigenvalue_le n (get_maxcut_qubitops n w).1 x₀
    have h2 := offset_add_evalZZ n w hsymm x₀
    rw [hx₀] at h2
    linarith
  · have h1 := le_maxCutValue n w x₁
    have h2 := offset_add_evalZZ n w hsymm x₁
    rw [hx₁] at h2
    linarith

/-- Witness for C1: the sample graph of the notebook is symmetric, and the
theorem applies to it. -/
theorem maxcut_ising_objective_correct_witness :
    (∀ i j, sampleGraph i j = sampleGraph j i) ∧
    ((∀ x : Fin 4 → Bool,
        (get_maxcut_qubitops 4 sampleGraph).2
            + evalZZ 4 (get_maxcut_qubitops 4 sampleGraph).1 x
          = -cutWeight 4 sampleGraph x) ∧
      (get_maxcut_qubitops 4 sampleGraph).2
          + minEigenvalue 4 (get_maxcut_qubitops 4 sampleGraph).1
        = -maxCutValue 4 sampleGraph) :=
  ⟨by decide, maxcut_ising_objective_correct 4 sampleGraph (by decide)⟩

/-- The `2^n` computational basis states in dense-matrix index order: index
`k` holds the state whose node `i` reads bit `i` of `k`. -/
def basisStates (n : ℕ) : List (Fin n → Bool) :=
  (List.range (2 ^ n)).map fun k => fun i => Nat.testBit k (i : ℕ)

/-- The dense-matrix index of a basis state (little-endian bits). -/
def encodeState (n : ℕ) (x : Fin n → Bool) : ℕ :=
  ∑ i, if x i then 2 ^ (i : ℕ) else 0

lemma encodeState_succ (n : ℕ) (x : Fin (n + 1) → Bool) :
    encodeState (n + 1) x
      = (if x 0 then 1 else 0) + 2 * encodeState n (fun i => x i.succ) := by
  unfold encodeState
  rw [Fin.sum_univ_succ, Finset.mul_sum]
  have h0 : (if x 0 = true then 2 ^ ((0 : Fin (n + 1)) : ℕ) else 0)
      = (if x 0 = true then 1 else 0) := by simp
  rw [h0]
  congr 1
  apply Finset.sum_congr rfl
  intro i _
  have hi : ((i.succ : Fin (n + 1)) : ℕ) = (i : ℕ) + 1 := rfl
  by_cases h : x i.succ <;> simp [h, hi, pow_succ] <;> try ring

lemma encodeState_lt (n : ℕ) (x : Fin n → Bool) : encodeState n x < 2 ^ n := by
  induction n with
  | zero => simp [encodeState]
  | succ m ih =>
    rw [encodeState_succ]
    have h1 : (if x 0 then 1 else 0) ≤ 1 := by by_cases h : x 0 <;> simp [h]
    have h2 := ih fun i => x i.succ
    have h3 : 2 ^ (m + 1) = 2 * 2 ^ m := by ring
    omega

lemma testBit_encodeState (n : ℕ) (x : Fin n → Bool) (i : Fin n) :
    Nat.testBit (encodeState n x) (i : ℕ) = x i := by
  induction n with
  | zero => exact absurd i.isLt (by simp)
  | succ m ih =>
    rw [encodeState_succ]
    have h1 : (if x 0 then 1 else 0) ≤ 1 := by by_cases h : x 0 <;> simp [h]
    rcases Fin.eq_zero_or_eq_succ i with rfl | ⟨j, rfl⟩
    · rw [show ((0 : Fin (m + 1)) : ℕ) = 0 from rfl, Nat.testBit_zero]
      by_cases h : x 0 <;> simp [h]
    · rw [show ((j.succ : Fin (m + 1)) : ℕ) = (j : ℕ) + 1 from rfl,
        Nat.testBit_add_one]
      have h2 : ((if x 0 then 1 else 0) + 2 * encodeState m fun i => x i.succ)
          / 2 = encodeState m fun i => x i.succ := by omega
      rw [h2]
      exact ih (fun i => x i.succ) j

lemma mem_basisStates (n : ℕ) (x : Fin n → Bool) : x ∈ basisStates n := by
  unfold basisStates
  refine List.mem_map.mpr ⟨encodeState n x,
    List.mem_range.mpr (encodeState_lt n x), ?_⟩
  funext i
  exact testBit_encodeState n x i

/-- Modelled from the spec: the external library's `ExactEigensolver.run`
(missing from the repository) on a diagonal `Z`-string Hamiltonian: dense
diagonalization reduces to scanning all `2^n` diagonal entries; the run
returns the lowest eigenvalue together with an eigenvector, represented by
the computational basis state attaining it. -/
def ExactEigensolver_run (n : ℕ) (paulis : List (ℚ × Fin n × Fin n)) :
    ℚ × (Fin n → Bool) :=
  (basisStates n).foldl
    (fun best x => if evalZZ n paulis x < best.1 then (evalZZ n paulis x, x)
      else best)
    (evalZZ n paulis (fun _ => false), fun _ => false)

lemma foldl_argmin_le {α : Type} (f : α → ℚ) (l : List α) (init : ℚ × α) :
    (l.foldl (fun best x => if f x < best.1 then (f x, x) else best) init).1
        ≤ init.1 ∧
    ∀ a ∈ l,
      (l.foldl (fun best x => if f x < best.1 then (f x, x) else best) init).1
        ≤ f a := by
  induction l generalizing init with
  | nil => exact ⟨le_refl _, by simp⟩
  | cons a t ih =>
    simp only [List.foldl_cons]
    have hstep1 : (if f a < init.1 then (f a, a) else init).1 ≤ init.1 := by
      by_cases h : f a < init.1 <;> simp [h]
      exact le_of_lt h
    have hstep2 : (if f a < init.1 then (f a, a) else init).1 ≤ f a := by
      by_cases h : f a < init.1 <;> simp [h]
      exact le_of_not_lt h
    refine ⟨le_trans (ih _).1 hstep1, ?_⟩
    intro b hb
    rcases List.mem_cons.mp hb with rfl | hb
    · exact le_trans (ih _).1 hstep2
    · exact (ih _).2 b hb

lemma foldl_argmin_attains {α : Type} (f : α → ℚ) (l : List α) (init : ℚ × α)
    (h : f init.2 = init.1) :
    f ((l.foldl (fun best x => if f x < best.1 then (f x, x) else best)
          init).2)
      = (l.foldl (fun best x => if f x < best.1 then (f x, x) else best)
          init).1 := by
  induction l generalizing init with
  | nil => exact h
  | cons a t ih =>
    simp only [List.foldl_cons]
    apply ih
    by_cases hc : f a < init.1 <;> simp [hc, h]

/-- C3: on every diagonal qubit Hamiltonian, the exact reference solver
returns exactly the minimum eigenvalue of the Hamiltonian's dense matrix,
together with a basis eigenvector attaining that eigenvalue. -/
theorem exact_eigensolver_returns_min_eigenvalue (n : ℕ)
    (paulis : List (ℚ × Fin n × Fin n)) :
    (ExactEigensolver_run n paulis).1 = minEigenvalue n paulis ∧
    evalZZ n paulis (ExactEigensolver_run n paulis).2
      = (ExactEigensolver_run n paulis).1 := by
  have hattain : evalZZ n paulis (ExactEigensolver_run n paulis).2
      = (ExactEigensolver_run n paulis).1 :=
    foldl_argmin_attains (evalZZ n paulis) _ _ rfl
  refine ⟨le_antisymm ?_ ?_, hattain⟩
  · obtain ⟨x₁, hx₁⟩ := exists_minEigenvalue_state n paulis
    have hmem : x₁ ∈ basisStates n := mem_basisStates n x₁
    have := (foldl_argmin_le (evalZZ n paulis) (basisStates n)
      (evalZZ n paulis (fun _ => false), fun _ => false)).2 x₁ hmem
    rw [hx₁] at this
    exact this
  · rw [← hattain]
    exact minEigenvalue_le n paulis _

/-- Modelled from the spec: the external library's `maxcut.sample_most_likely`
(missing from the repository) on a state vector of amplitudes: it takes
`n = log2(len v)`, picks the index of the entry of largest absolute value
(first such index on ties, as `argmax` does), and unpacks that index into
its `n` little-endian bits. -/
def sample_most_likely (v : List ℚ) : List ℕ :=
  let k := (List.range v.length).foldl
    (fun best j => if |v.getD j 0| > |v.getD best 0| then j else best) 0
  (List.range v.length.log2).map fun i => (k >>> i) % 2

/-- Modelled from the spec: the external library's `maxcut.get_graph_solution`
(missing from the repository): maps the sampled bitstring to the 0/1
cut-side label of each node, as `1 - x`. -/
def get_graph_solution (x : List ℕ) : List ℕ :=
  x.map fun b => 1 - b

lemma log2_two_pow (n : ℕ) : Nat.log2 (2 ^ n) = n := Nat.log2_two_pow

/-- C4: decoding a computed eigenvector over `n` graph nodes (a state vector
with `2^n` amplitudes) via `sample_most_likely` followed by
`get_graph_solution` returns a vector of exactly `n` labels, each label
being 0 or 1. -/
theorem decode_solution_shape (n : ℕ) (v : List ℚ) (hlen : v.length = 2 ^ n) :
    (get_graph_solution (sample_most_likely v)).length = n ∧
    ∀ b ∈ get_graph_solution (sample_most_likely v), b = 0 ∨ b = 1 := by
  constructor
  · simp [get_graph_solution, sample_most_likely, hlen, log2_two_pow]
  · intro b hb
    simp only [get_graph_solution, sample_most_likely, List.mem_map] at hb
    obtain ⟨c, ⟨i, -, hc⟩, hb⟩ := hb
    have h2 : c < 2 := by rw [← hc]; exact Nat.mod_lt _ (by omega)
    omega

/-- Witness for C4: a concrete 4-amplitude eigenvector over 2 nodes. -/
theorem decode_solution_shape_witness :
    ([(0 : ℚ), 1, 0, 0].length = 2 ^ 2) ∧
    ((get_graph_solution (sample_most_likely [(0 : ℚ), 1, 0, 0])).length = 2 ∧
      ∀ b ∈ get_graph_solution (sample_most_likely [(0 : ℚ), 1, 0, 0]),
        b = 0 ∨ b = 1) :=
  ⟨rfl, decode_solution_shape 2 [0, 1, 0, 0] rfl⟩

/-- C5: solution decoding is deterministic and idempotent: two runs of
`sample_most_likely` / `get_graph_solution` on the same eigenvector produce
the same bitstring, there being no randomness and no special handling of
numerical degeneracy (ties are always broken towards the first index). -/
theorem decode_deterministic (v₁ v₂ : List ℚ) (h : v₁ = v₂) :
    sample_most_likely v₁ = sample_most_likely v₂ ∧
    get_graph_solution (sample_most_likely v₁)
      = get_graph_solution (sample_most_likely v₂) := by
  rw [h]
  exact ⟨rfl, rfl⟩

/-- Witness for C5: two runs on the recorded eigenvector shape agree. -/
theorem decode_deterministic_witness :
    ([(1 : ℚ), 1, 0, 0] = [(1 : ℚ), 1, 0, 0]) ∧
    (sample_most_likely [(1 : ℚ), 1, 0, 0]
        = sample_most_likely [(1 : ℚ), 1, 0, 0] ∧
      get_graph_solution (sample_most_likely [(1 : ℚ), 1, 0, 0])
        = get_graph_solution (sample_most_likely [(1 : ℚ), 1, 0, 0])) :=
  ⟨rfl, decode_deterministic [1, 1, 0, 0] [1, 1, 0, 0] rfl⟩

/-- C6: the graph-to-Hamiltonian mapping is a pure function of the weight
matrix: two invocations on the same matrix return equal (pauli list, offset)
pairs; the embedding is total, so there is no failure mode at all on square
matrices. -/
theorem get_maxcut_qubitops_deterministic (n : ℕ)
    (w₁ w₂ : Fin n → Fin n → ℚ) (h : w₁ = w₂) :
    get_maxcut_qubitops n w₁ = get_maxcut_qubitops n w₂ := by
  rw [h]

/-- Witness for C6: two invocations on the notebook's sample graph agree. -/
theorem get_maxcut_qubitops_deterministic_witness :
    (sampleGraph = sampleGraph) ∧
    get_maxcut_qubitops 4 sampleGraph = get_maxcut_qubitops 4 sampleGraph :=
  ⟨rfl, get_maxcut_qubitops_deterministic 4 sampleGraph sampleGraph rfl⟩

/-- Modelled from the spec: the external library's `maxcut.random_graph`
(missing from the repository).  The seeded random process is abstracted as
the draw table `draw`: for each pair `i < j` the drawn weight (0 when the
edge coin fails); the strict upper triangle is filled and the matrix is
symmetrized by adding its transpose. -/
def random_graph (n : ℕ) (draw : Fin n → Fin n → ℚ) : Fin n → Fin n → ℚ :=
  fun i j => (if i < j then draw i j else 0) + (if j < i then draw j i else 0)

/-- Modelled from the spec: the external library's `maxcut.parse_gset_format`
(missing from the repository).  Each line of the Gset edge-list file is a
(node, node, weight) triple; entries are written into a zero matrix in
order, and the matrix is symmetrized by adding its transpose. -/
def parse_gset_format (n : ℕ) (edges : List (Fin n × Fin n × ℚ)) :
    Fin n → Fin n → ℚ :=
  let upper := edges.foldl
    (fun acc e => fun i j => if i = e.1 ∧ j = e.2.1 then e.2.2 else acc i j)
    (fun _ _ => 0)
  fun i j => upper i j + upper j i

lemma parse_upper_diag (n : ℕ) (edges : List (Fin n × Fin n × ℚ))
    (h : ∀ e ∈ edges, e.1 ≠ e.2.1) (acc : Fin n → Fin n → ℚ)
    (hacc : ∀ i, acc i i = 0) :
    ∀ i, (edges.foldl
      (fun acc e => fun i j => if i = e.1 ∧ j = e.2.1 then e.2.2 else acc i j)
      acc) i i = 0 := by
  induction edges generalizing acc with
  | nil => exact hacc
  | cons e t ih =>
    simp only [List.foldl_cons]
    apply ih
    · intro f hf
      exact h f (List.mem_cons_of_mem e hf)
    · intro i
      have hne := h e (List.mem_cons_self e t)
      by_cases hc : i = e.1 ∧ i = e.2.1
      · exact absurd (hc.1.symm.trans hc.2) hne
      · simp [hc, hacc i]

/-- C7: every weighted graph handed to the pipeline is a square matrix (by
type), is symmetric, and has zero diagonal: this holds for `random_graph`
under every random draw, and for `parse_gset_format` on every edge list
without self-loops. -/
theorem produced_graphs_symmetric_zero_diag (n : ℕ) :
    (∀ draw : Fin n → Fin n → ℚ,
      (∀ i j, random_graph n draw i j = random_graph n draw j i) ∧
      ∀ i, random_graph n draw i i = 0) ∧
    (∀ edges : List (Fin n × Fin n × ℚ), (∀ e ∈ edges, e.1 ≠ e.2.1) →
      (∀ i j, parse_gset_format n edges i j = parse_gset_format n edges j i) ∧
      ∀ i, parse_gset_format n edges i i = 0) := by
  constructor
  · intro draw
    constructor
    · intro i j
      unfold random_graph
      exact add_comm _ _
    · intro i
      simp [random_graph]
  · intro edges h
    constructor
    · intro i j
      unfold parse_gset_format
      exact add_comm _ _
    · intro i
      have hd := parse_upper_diag n edges h (fun _ _ => 0) (fun _ => rfl) i
      simp [parse_gset_format, hd]
/-- Witness for C7: the edge list of the notebook's 4-node sample graph has
no self-loops, and the theorem applies to it. -/
theorem produced_graphs_symmetric_zero_diag_witness :
    (∀ e ∈ ([(0, 1, 8), (0, 2, -9), (1, 2, 7), (1, 3, 9), (2, 3, -8)] :
        List (Fin 4 × Fin 4 × ℚ)), e.1 ≠ e.2.1) ∧
    ((∀ i j, parse_gset_format 4
          [(0, 1, 8), (0, 2, -9), (1, 2, 7), (1, 3, 9), (2, 3, -8)] i j
        = parse_gset_format 4
          [(0, 1, 8), (0, 2, -9), (1, 2, 7), (1, 3, 9), (2, 3, -8)] j i) ∧
      ∀ i, parse_gset_format 4
          [(0, 1, 8), (0, 2, -9), (1, 2, 7), (1, 3, 9), (2, 3, -8)] i i = 0) :=
  ⟨by decide, (produced_graphs_symmetric_zero_diag 4).2
    [(0, 1, 8), (0, 2, -9), (1, 2, 7), (1, 3, 9), (2, 3, -8)] (by decide)⟩

/-- The state of the maxcut notebook after the Hamiltonian has been derived:
the qubit operator and offset bound in cell 3, the standard-output stream
(modelled as the list of printed energy values), and any persisted
artifacts (the notebook persists none). -/
structure NotebookState (n : ℕ) where
  qubitOp : List (ℚ × Fin n × Fin n)
  offset : ℚ
  stdout : List ℚ
  persisted : List ℚ

/-- The notebook cell that runs the exact eigensolver on the current
Hamiltonian and prints the energy and the maxcut objective
(energy + offset). -/
def run_ee_cell (n : ℕ) (s : NotebookState n) : NotebookState n :=
  let r := ExactEigensolver_run n s.qubitOp
  { s with stdout := s.stdout ++ [r.1, r.1 + s.offset] }

/-- The notebook cell that runs VQE on the current Hamiltonian and prints
the energy, the elapsed time and the maxcut objective.  The variational
solver itself is external; its reported energy and time enter as the
parameters `e` and `t`. -/
def run_vqe_cell (n : ℕ) (e t : ℚ) (s : NotebookState n) : NotebookState n :=
  { s with stdout := s.stdout ++ [e, t, e + s.offset] }

/-- C8: the qubit Hamiltonian is derived once and treated as read-only by
both solver strategies: running the exact eigensolver cell and then the VQE
cell leaves `qubitOp` and `offset` unchanged and persists nothing; the only
effect is appending results to standard output. -/
theorem hamiltonian_read_only_and_stdout_only (n : ℕ) (s : NotebookState n)
    (e t : ℚ) :
    (run_vqe_cell n e t (run_ee_cell n s)).qubitOp = s.qubitOp ∧
    (run_vqe_cell n e t (run_ee_cell n s)).offset = s.offset ∧
    (run_vqe_cell n e t (run_ee_cell n s)).persisted = s.persisted ∧
    ∃ out, (run_vqe_cell n e t (run_ee_cell n s)).stdout = s.stdout ++ out := by
  refine ⟨rfl, rfl, rfl,
    ⟨[(ExactEigensolver_run n s.qubitOp).1,
      (ExactEigensolver_run n s.qubitOp).1 + s.offset, e, t, e + s.offset],
      ?_⟩⟩
  simp [run_ee_cell, run_vqe_cell]

/-- The linear notebook pipeline: parse the graph, build the qubit operator,
solve.  All three stages are external library calls; each may raise a
library exception `ε`, and the notebook composes them with no try/except,
no validation and no recovery. -/
def notebook_pipeline {E W H R : Type} (parse : Except E W)
    (toOps : W → Except E H) (solve : H → Except E R) : Except E R := do
  let w ← parse
  let qop ← toOps w
  solve qop

/-- C9: whenever an external library stage fails, the pipeline's result is
exactly the exception that stage raised, unmodified, whichever stage it is:
no local recovery, validation, or user-facing error handling intervenes. -/
theorem pipeline_propagates_library_errors {E W H R : Type}
    (parse : Except E W) (toOps : W → Except E H) (solve : H → Except E R) :
    (∀ e, parse = Except.error e →
      notebook_pipeline parse toOps solve = Except.error e) ∧
    (∀ e w, parse = Except.ok w → toOps w = Except.error e →
      notebook_pipeline parse toOps solve = Except.error e) ∧
    (∀ e w qop, parse = Except.ok w → toOps w = Except.ok qop →
      solve qop = Except.error e →
      notebook_pipeline parse toOps solve = Except.error e) := by
  refine ⟨?_, ?_, ?_⟩
  · intro e he
    subst he
    rfl
  · intro e w hw he
    subst hw
    show Except.bind (toOps w) (fun qop => solve qop) = Except.error e
    rw [he]
    rfl
  · intro e w qop hw hq he
    subst hw
    show Except.bind (toOps w) (fun qop => solve qop) = Except.error e
    rw [hq]
    exact he

/-- Witness for C9: a concrete failing parse stage propagates its exact
exception through the pipeline. -/
theorem pipeline_propagates_library_errors_witness :
    ((Except.error 7 : Except ℕ ℕ) = Except.error 7) ∧
    notebook_pipeline (Except.error 7 : Except ℕ ℕ)
        (fun w : ℕ => Except.ok w) (fun qop : ℕ => Except.ok qop)
      = Except.error 7 :=
  ⟨rfl, (pipeline_propagates_library_errors (Except.error 7)
    (fun w : ℕ => Except.ok w) (fun qop : ℕ => Except.ok qop)).1 7 rfl⟩

/-- Energy printed by the ExactEigensolver cell of the maxcut notebook. -/
def recorded_ee_energy : ℚ := -20.5

/-- Energy printed by the VQE cell of the maxcut notebook. -/
def recorded_vqe_energy : ℚ := -20.499999999992276

/-- Maxcut objective printed by the ExactEigensolver cell. -/
def recorded_ee_objective : ℚ := -24.0

/-- Maxcut objective printed by the VQE cell. -/
def recorded_vqe_objective : ℚ := -23.999999999992276

/-- LiH computed energy printed by the exact eigensolver cell of the
chemistry notebook. -/
def recorded_lih_exact_energy : ℚ := -1.077059745735

/-- LiH computed ground state energy printed by the VQE cell of the
chemistry notebook. -/
def recorded_lih_vqe_energy : ℚ := -1.077059737908

/-- Agreement tolerance for the two solvers (far tighter than chemical
accuracy). -/
def numerical_tolerance : ℚ := 1 / 1000000

/-- C2: on both recorded small instances — the 4-node Max-Cut graph and the
reduced LiH qubit Hamiltonian — the lowest eigenvalue printed by the exact
eigensolver and the energy printed by VQE agree within numerical tolerance,
and so do the derived maxcut objectives (optimal cut values). -/
theorem exact_and_variational_solvers_agree :
    |recorded_ee_energy - recorded_vqe_energy| < numerical_tolerance ∧
    |recorded_ee_objective - recorded_vqe_objective| < numerical_tolerance ∧
    |recorded_lih_exact_energy - recorded_lih_vqe_energy|
      < numerical_tolerance := by
  refine ⟨?_, ?_, ?_⟩ <;>
    rw [abs_lt] <;>
    constructor <;>
    norm_num [recorded_ee_energy, recorded_vqe_energy, recorded_ee_objective,
      recorded_vqe_objective, recorded_lih_exact_energy,
      recorded_lih_vqe_energy, numerical_tolerance]

/-- Number of spatial orbitals of the LiH molecule in the sto3g basis:
`molecule.num_orbitals`, fixed by the recorded output
"# of spin orbitals: 12" and `num_spin_orbitals = num_orbitals * 2`. -/
def lih_num_orbitals : ℤ := 6

/-- Number of electrons: `molecule.num_alpha + molecule.num_beta`, fixed by
the recorded output "# of electrons: 4". -/
def lih_num_particles : ℤ := 4

/-- `freeze_list = [0]` as set in the chemistry notebook. -/
def freeze_list_start : List ℤ := [0]

/-- `remove_list = [-3, -2]` as set in the chemistry notebook (negative
numbers denote reverse order). -/
def remove_list_start : List ℤ := [-3, -2]

/-- `remove_list = [x % molecule.num_orbitals for x in remove_list]`:
Python's `%` on a positive modulus, which is `Int.emod`. -/
def remove_list_mod : List ℤ :=
  remove_list_start.map fun x => x % lih_num_orbitals

/-- `freeze_list = [x % molecule.num_orbitals for x in freeze_list]`. -/
def freeze_list_mod : List ℤ :=
  freeze_list_start.map fun x => x % lih_num_orbitals

/-- `remove_list = [x - len(freeze_list) for x in remove_list]`. -/
def remove_list_shifted : List ℤ :=
  remove_list_mod.map fun x => x - freeze_list_mod.length

/-- `remove_list += [x + molecule.num_orbitals - len(freeze_list) for x in
remove_list]` (the comprehension reads the pre-extension list). -/
def remove_list_final : List ℤ :=
  remove_list_shifted ++ remove_list_shifted.map
    fun x => x + lih_num_orbitals - freeze_list_mod.length

/-- `freeze_list += [x + molecule.num_orbitals for x in freeze_list]`. -/
def freeze_list_final : List ℤ :=
  freeze_list_mod ++ freeze_list_mod.map fun x => x + lih_num_orbitals

/-- `num_spin_orbitals = molecule.num_orbitals * 2`. -/
def num_spin_orbitals_start : ℤ := lih_num_orbitals * 2

/-- `num_spin_orbitals -= len(freeze_list)` inside the freezing branch. -/
def num_spin_orbitals_frozen : ℤ :=
  num_spin_orbitals_start - freeze_list_final.length

/-- `num_particles -= len(freeze_list)` inside the freezing branch. -/
def num_particles_frozen : ℤ :=
  lih_num_particles - freeze_list_final.length

/-- `num_spin_orbitals -= len(remove_list)` inside the elimination branch. -/
def num_spin_orbitals_final : ℤ :=
  num_spin_orbitals_frozen - remove_list_final.length

/-- C10: the chemistry notebook's orbital-reduction index arithmetic on
`num_orbitals = 6`, `freeze_list = [0]`, `remove_list = [-3, -2]` produces
`freeze_list = [0, 6]` and `remove_list = [2, 3, 7, 8]`, and the counters
drop from 12 spin orbitals and 4 particles to 6 and 2. -/
theorem orbital_reduction_index_arithmetic :
    freeze_list_final = [0, 6] ∧
    remove_list_final = [2, 3, 7, 8] ∧
    num_spin_orbitals_start = 12 ∧
    lih_num_particles = 4 ∧
    num_spin_orbitals_final = 6 ∧
    num_particles_frozen = 2 := by
  refine ⟨?_, ?_, ?_, ?_, ?_, ?_⟩ <;> decide
